import Mathlib

/-!
Verification of the gender-based corpus filtering tools (`src/morphological_filtering.py`,
`src/source_filter.py`, `src/target_filter.py`, `src/utils.py`).

Sentences and file lines are modelled as `List Char`; gender labels are `String`s.
File writes are modelled as appending the written line to an output list, and a Python
exception (e.g. `AttributeError` from calling `.split()` on `None`) is modelled as
`Except.error`.
-/

namespace GfstNmt

/-- A line of text / a sentence, as in `utils.py` everything is a plain string. -/
abbrev Line := List Char

/-- `utils.FEM_LABEL`. -/
def FEM_LABEL : String := "fem"

/-- `utils.MSC_LABEL`. -/
def MSC_LABEL : String := "msc"

/-- `utils.OTHER_LABEL`. -/
def OTHER_LABEL : String := "other"

/-- Membership in Python's `string.punctuation`, i.e. the ASCII ranges
`!`..`/` (33–47), `:`..`@` (58–64), `[`..the backquote (91–96), and 123–126. -/
def isPyPunct (c : Char) : Bool :=
  (33 ≤ c.toNat && c.toNat ≤ 47) || (58 ≤ c.toNat && c.toNat ≤ 64) ||
  (91 ≤ c.toNat && c.toNat ≤ 96) || (123 ≤ c.toNat && c.toNat ≤ 126)

/-- Python's notion of (ASCII) whitespace, as used by `str.split()` and `str.strip()`:
space, tab, newline, carriage return, vertical tab (11) and form feed (12). -/
def isPySpace (c : Char) : Bool :=
  c = ' ' || c = '\t' || c = '\n' || c = '\x0d' || c.toNat = 11 || c.toNat = 12

/-- `str.translate(PUNCTUATION_STRIPPER)`: delete every `string.punctuation` character
(`utils.PUNCTUATION_STRIPPER = str.maketrans('', '', string.punctuation)`). -/
def stripPunct (s : Line) : Line := s.filter (fun c => !isPyPunct c)

/-- ASCII lowercasing of one character, as `str.lower` acts on the ASCII inputs used here. -/
def pyLowerChar (c : Char) : Char :=
  if 65 ≤ c.toNat && c.toNat ≤ 90 then Char.ofNat (c.toNat + 32) else c

/-- `str.lower()` (ASCII fragment). -/
def pyLower (s : Line) : Line := s.map pyLowerChar

/-- `str.strip()`: remove leading and trailing whitespace. -/
def pyStrip (s : Line) : Line :=
  ((s.dropWhile isPySpace).reverse.dropWhile isPySpace).reverse

/-- Helper for `splitWS`: accumulates the current (reversed) in-progress token. -/
def splitWSAux : List Char → List Char → List (List Char)
  | [], acc => if acc = [] then [] else [acc.reverse]
  | c :: rest, acc =>
    if isPySpace c then
      if acc = [] then splitWSAux rest []
      else acc.reverse :: splitWSAux rest []
    else splitWSAux rest (c :: acc)

/-- Python `str.split()` with no argument: maximal runs of non-whitespace characters;
no empty tokens, leading/trailing whitespace ignored. -/
def splitWS (s : Line) : List (List Char) := splitWSAux s []

/-- Python `str.split(',')`: split at every comma, keeping empty pieces
(so the result always has one more piece than there are commas). -/
def splitComma : List Char → List (List Char)
  | [] => [[]]
  | c :: rest =>
    if c = ',' then [] :: splitComma rest
    else
      match splitComma rest with
      | t :: ts => (c :: t) :: ts
      | [] => [[c]]

/-! ### The classifier family and its label tables

`MorphFilterer.__init__` installs `MATCH_GENDER_LABELS` / `OTHER_GENDER_LABELS` as
per-instance dictionaries keyed by `fem` / `msc`; `RussianMorphFilterer.__init__` and
`SpacyMorphFilterer.__init__` extend them with the analyzer-specific labels
(`femn`/`masc` for pymorphy2, `Fem`/`Masc` for spaCy). The German and Hebrew subclasses
keep the base tables. We model the family by an enumeration of the concrete variants. -/

/-- The concrete `MorphFilterer` variants (base class, German, Hebrew, Russian, spaCy). -/
inductive Variant where
  | base
  | de
  | he
  | ru
  | spacy
deriving DecidableEq

/-- `self.MATCH_GENDER_LABELS`, per variant: the raw labels counting as the requested
gender. The Python dict has exactly the keys `fem` and `msc`; other keys are modelled
as the empty set. -/
def MATCH_GENDER_LABELS (v : Variant) (g : String) : List String :=
  if g = FEM_LABEL then
    match v with
    | .ru => [FEM_LABEL, "femn"]
    | .spacy => [FEM_LABEL, "Fem"]
    | _ => [FEM_LABEL]
  else if g = MSC_LABEL then
    match v with
    | .ru => [MSC_LABEL, "masc"]
    | .spacy => [MSC_LABEL, "Masc"]
    | _ => [MSC_LABEL]
  else []

/-- `self.OTHER_GENDER_LABELS`, per variant: the raw labels counting as the opposite
gender. -/
def OTHER_GENDER_LABELS (v : Variant) (g : String) : List String :=
  if g = FEM_LABEL then
    match v with
    | .ru => [MSC_LABEL, "masc"]
    | .spacy => [MSC_LABEL, "Masc"]
    | _ => [MSC_LABEL]
  else if g = MSC_LABEL then
    match v with
    | .ru => [FEM_LABEL, "femn"]
    | .spacy => [FEM_LABEL, "Fem"]
    | _ => [FEM_LABEL]
  else []

/-- The loop of `MorphFilterer._matches_gender`: walk the per-word labels, returning
`false` at the first label in the other-gender set, and otherwise accumulating the
"has a matching-gender word" flag. -/
def matchesGenderLoop (M O : List String) : List String → Bool → Bool
  | [], flag => flag
  | l :: rest, flag =>
    if l ∈ O then false
    else matchesGenderLoop M O rest (flag || decide (l ∈ M))

/-- `MorphFilterer._matches_gender`, abstracted over the per-word label list produced by
`_get_gender_per_word` (the label sets `M`, `O` are the variant's
`MATCH_GENDER_LABELS[g]` and `OTHER_GENDER_LABELS[g]`). -/
def matches_gender (M O : List String) (labels : List String) : Bool :=
  matchesGenderLoop M O labels false

lemma matchesGenderLoop_spec (M O : List String) (labels : List String) (flag : Bool) :
    matchesGenderLoop M O labels flag = true ↔
      ((flag = true ∨ ∃ l ∈ labels, l ∈ M) ∧ ∀ l ∈ labels, l ∉ O) := by
  induction labels generalizing flag with
  | nil => simp [matchesGenderLoop]
  | cons a rest ih =>
    by_cases hO : a ∈ O
    · simp [matchesGenderLoop, hO]
    · simp only [matchesGenderLoop, if_neg hO, ih, List.mem_cons]
      constructor
      · rintro ⟨h1, h2⟩
        refine ⟨?_, ?_⟩
        · rcases h1 with h1 | h1
          · rcases Bool.or_eq_true_iff.mp h1 with h | h
            · exact Or.inl h
            · exact Or.inr ⟨a, Or.inl rfl, of_decide_eq_true h⟩
          · rcases h1 with ⟨l, hl, hlM⟩
            exact Or.inr ⟨l, Or.inr hl, hlM⟩
        · rintro l (rfl | hl)
          · exact hO
          · exact h2 l hl
      · rintro ⟨h1, h2⟩
        refine ⟨?_, fun l hl => h2 l (Or.inr hl)⟩
        rcases h1 with h1 | ⟨l, (rfl | hl), hlM⟩
        · exact Or.inl (by simp [h1])
        · exact Or.inl (by simp [hlM])
        · exact Or.inr ⟨l, hl, hlM⟩

lemma matches_gender_iff (M O : List String) (labels : List String) :
    matches_gender M O labels = true ↔
      (∃ l ∈ labels, l ∈ M) ∧ ∀ l ∈ labels, l ∉ O := by
  simp [matches_gender, matchesGenderLoop_spec]

/-- **C1.** For every classifier variant and requested gender `g ∈ {fem, msc}`,
`_matches_gender` holds iff the per-word label list contains a label of
`MATCH_GENDER_LABELS[g]` and none of `OTHER_GENDER_LABELS[g]`; the verdict is invariant
under permutation of the label list; and a label list meeting neither set yields `false`. -/
theorem matches_gender_characterization (v : Variant) (g : String)
    (_hg : g = FEM_LABEL ∨ g = MSC_LABEL) (labels labels' : List String)
    (hperm : labels.Perm labels') :
    (matches_gender (MATCH_GENDER_LABELS v g) (OTHER_GENDER_LABELS v g) labels = true ↔
      (∃ l ∈ labels, l ∈ MATCH_GENDER_LABELS v g) ∧
        ∀ l ∈ labels, l ∉ OTHER_GENDER_LABELS v g) ∧
    matches_gender (MATCH_GENDER_LABELS v g) (OTHER_GENDER_LABELS v g) labels =
      matches_gender (MATCH_GENDER_LABELS v g) (OTHER_GENDER_LABELS v g) labels' ∧
    ((∀ l ∈ labels, l ∉ MATCH_GENDER_LABELS v g ∧ l ∉ OTHER_GENDER_LABELS v g) →
      matches_gender (MATCH_GENDER_LABELS v g) (OTHER_GENDER_LABELS v g) labels = false) := by
  refine ⟨matches_gender_iff _ _ _, ?_, ?_⟩
  · have h1 := matches_gender_iff (MATCH_GENDER_LABELS v g) (OTHER_GENDER_LABELS v g) labels
    have h2 := matches_gender_iff (MATCH_GENDER_LABELS v g) (OTHER_GENDER_LABELS v g) labels'
    have hmem : ∀ l, l ∈ labels ↔ l ∈ labels' := fun l => hperm.mem_iff
    rcases hb : matches_gender (MATCH_GENDER_LABELS v g) (OTHER_GENDER_LABELS v g) labels'
    · rcases hb' : matches_gender (MATCH_GENDER_LABELS v g) (OTHER_GENDER_LABELS v g) labels
      · rfl
      · exfalso
        rcases h1.mp hb' with ⟨⟨l, hl, hlM⟩, hall⟩
        have hok : (∃ l ∈ labels', l ∈ MATCH_GENDER_LABELS v g) ∧
            ∀ l ∈ labels', l ∉ OTHER_GENDER_LABELS v g :=
          ⟨⟨l, (hmem l).mp hl, hlM⟩, fun l' hl' => hall l' ((hmem l').mpr hl')⟩
        rw [h2.mpr hok] at hb
        exact absurd hb (by decide)
    · rcases h2.mp hb with ⟨⟨l, hl, hlM⟩, hall⟩
      exact h1.mpr ⟨⟨l, (hmem l).mpr hl, hlM⟩, fun l' hl' => hall l' ((hmem l').mp hl')⟩
  · intro hnone
    rcases hb : matches_gender (MATCH_GENDER_LABELS v g) (OTHER_GENDER_LABELS v g) labels
    · rfl
    · rcases (matches_gender_iff _ _ _).mp hb with ⟨⟨l, hl, hlM⟩, _⟩
      exact absurd hlM (hnone l hl).1

/-- Witness for C1 at a concrete instance: Russian variant, gender `fem`, labels
`["other", "femn"]` permuted to `["femn", "other"]`. -/
theorem matches_gender_characterization_witness :
    matches_gender (MATCH_GENDER_LABELS Variant.ru FEM_LABEL)
        (OTHER_GENDER_LABELS Variant.ru FEM_LABEL) ["other", "femn"] = true :=
  ((matches_gender_characterization Variant.ru FEM_LABEL (Or.inl rfl)
      ["other", "femn"] ["femn", "other"] (by decide)).1).mpr (by decide)

/-- **C9.** Label-set disjointness: after construction of any classifier variant, for each
gender `g ∈ {fem, msc}` the sets `MATCH_GENDER_LABELS[g]` and `OTHER_GENDER_LABELS[g]`
are disjoint. -/
theorem label_sets_disjoint (v : Variant) (g : String)
    (hg : g = FEM_LABEL ∨ g = MSC_LABEL) (l : String) :
    l ∈ MATCH_GENDER_LABELS v g → l ∉ OTHER_GENDER_LABELS v g := by
  rcases hg with rfl | rfl <;> cases v <;>
    simp [MATCH_GENDER_LABELS, OTHER_GENDER_LABELS, FEM_LABEL, MSC_LABEL] <;>
    rintro (rfl | rfl) <;> simp

/-- Witness for C9: the pymorphy2 label `femn` is a feminine match label for the Russian
variant and not in the feminine other-gender set. -/
theorem label_sets_disjoint_witness :
    ("femn" : String) ∉ OTHER_GENDER_LABELS Variant.ru FEM_LABEL :=
  label_sets_disjoint Variant.ru FEM_LABEL (Or.inl rfl) "femn" (by decide)

/-! ### `MorphFilterer.target_filter`

The driver reads the two input files with `zip_longest` (fill value `None`), counts every
pair, applies the repetition heuristic `len(src_line.split()) * 2 < len(trg_line.split())`,
and writes both lines iff `_matches_gender(trg_line, gender)` holds. The aggregated
classifier `_matches_gender(·, gender)` is abstracted as a boolean predicate `mg` on the
target line. A `None` fill reaching `.split()` raises `AttributeError`, modelled as
`Except.error ()`. -/

/-- Result of a `target_filter` run: the two counters and the two output files. -/
structure TFResult where
  total : Nat
  kept : Nat
  out_src : List Line
  out_trg : List Line
deriving DecidableEq

/-- `itertools.zip_longest` on two lists, with Python's default fill value `None`. -/
def zipLongest : List Line → List Line → List (Option Line × Option Line)
  | [], bs => bs.map (fun b => (none, some b))
  | a :: as, [] => (some a, none) :: zipLongest as []
  | a :: as, b :: bs => (some a, some b) :: zipLongest as bs

/-- One iteration of the `target_filter` loop body on the pair `(src_line, trg_line)`
delivered by `zip_longest`. `count_total` is incremented first; `src_line.split()` is
evaluated before `trg_line.split()`, so a `None` on either side raises. -/
def target_filter_step (mg : Line → Bool) (st : TFResult) :
    Option Line × Option Line → Except Unit TFResult
  | (src_line?, trg_line?) =>
    match src_line? with
    | none => Except.error ()
    | some src_line =>
      match trg_line? with
      | none => Except.error ()
      | some trg_line =>
        if (splitWS src_line).length * 2 < (splitWS trg_line).length then
          Except.ok { st with total := st.total + 1 }
        else if mg trg_line then
          Except.ok { total := st.total + 1, kept := st.kept + 1,
                      out_src := st.out_src ++ [src_line],
                      out_trg := st.out_trg ++ [trg_line] }
        else
          Except.ok { st with total := st.total + 1 }

/-- The `target_filter` loop over the zipped pair list; an error in a step aborts the run. -/
def target_filter_go (mg : Line → Bool) :
    List (Option Line × Option Line) → TFResult → Except Unit TFResult
  | [], st => Except.ok st
  | p :: rest, st => (target_filter_step mg st p).bind (target_filter_go mg rest)

/-- `MorphFilterer.target_filter`, over in-memory line lists. -/
def target_filter (mg : Line → Bool) (src trg : List Line) : Except Unit TFResult :=
  target_filter_go mg (zipLongest src trg) { total := 0, kept := 0, out_src := [], out_trg := [] }

/-- The pairs a `target_filter` run keeps: those passing the repetition heuristic whose
target line matches the requested gender. -/
def keptPairs (mg : Line → Bool) (pairs : List (Line × Line)) : List (Line × Line) :=
  pairs.filter fun p =>
    if (splitWS p.1).length * 2 < (splitWS p.2).length then false else mg p.2

lemma zipLongest_eq_zip (src trg : List Line) (h : src.length = trg.length) :
    zipLongest src trg = (src.zip trg).map (fun p => (some p.1, some p.2)) := by
  induction src generalizing trg with
  | nil =>
    cases trg with
    | nil => simp [zipLongest]
    | cons b bs => simp at h
  | cons a as ih =>
    cases trg with
    | nil => simp at h
    | cons b bs =>
      simp only [List.length_cons, Nat.succ.injEq] at h
      simp [zipLongest, List.zip_cons_cons, ih bs h]

lemma target_filter_go_pairs (mg : Line → Bool) (pairs : List (Line × Line)) (st : TFResult) :
    target_filter_go mg (pairs.map (fun p => (some p.1, some p.2))) st =
      Except.ok { total := st.total + pairs.length,
                  kept := st.kept + (keptPairs mg pairs).length,
                  out_src := st.out_src ++ (keptPairs mg pairs).map Prod.fst,
                  out_trg := st.out_trg ++ (keptPairs mg pairs).map Prod.snd } := by
  induction pairs generalizing st with
  | nil => simp [target_filter_go, keptPairs]
  | cons p rest ih =>
    rcases p with ⟨s, t⟩
    by_cases hdrop : (splitWS s).length * 2 < (splitWS t).length
    · have hk : keptPairs mg ((s, t) :: rest) = keptPairs mg rest := by
        simp [keptPairs, hdrop]
      simp only [List.map_cons, target_filter_go, target_filter_step, if_pos hdrop,
        Except.bind, hk, ih]
      simp only [Except.ok.injEq, TFResult.mk.injEq, List.length_cons]
      refine ⟨by omega, by trivial, by trivial, by trivial⟩
    · by_cases hmg : mg t = true
      · have hk : keptPairs mg ((s, t) :: rest) = (s, t) :: keptPairs mg rest := by
          simp [keptPairs, hdrop, hmg]
        simp only [List.map_cons, target_filter_go, target_filter_step, if_neg hdrop,
          if_pos hmg, Except.bind, hk, ih]
        simp only [Except.ok.injEq, TFResult.mk.injEq, List.length_cons, List.map_cons]
        refine ⟨by omega, by omega, by simp, by simp⟩
      · have hmgf : mg t = false := by
          simpa using hmg
        have hk : keptPairs mg ((s, t) :: rest) = keptPairs mg rest := by
          simp [keptPairs, hdrop, hmgf]
        simp only [List.map_cons, target_filter_go, target_filter_step, if_neg hdrop,
          if_neg hmg, Except.bind, hk, ih]
        simp only [Except.ok.injEq, TFResult.mk.injEq, List.length_cons]
        refine ⟨by omega, by trivial, by trivial, by trivial⟩

/-- Closed form of a successful `target_filter` run on equally long inputs. -/
lemma target_filter_eq (mg : Line → Bool) (src trg : List Line)
    (h : src.length = trg.length) :
    target_filter mg src trg =
      Except.ok { total := (src.zip trg).length,
                  kept := (keptPairs mg (src.zip trg)).length,
                  out_src := (keptPairs mg (src.zip trg)).map Prod.fst,
                  out_trg := (keptPairs mg (src.zip trg)).map Prod.snd } := by
  have := target_filter_go_pairs mg (src.zip trg)
    { total := 0, kept := 0, out_src := [], out_trg := [] }
  simpa [target_filter, zipLongest_eq_zip src trg h] using this

lemma target_filter_go_error (mg : Line → Bool) (src trg : List Line)
    (h : src.length ≠ trg.length) (st : TFResult) :
    target_filter_go mg (zipLongest src trg) st = Except.error () := by
  induction src generalizing trg st with
  | nil =>
    cases trg with
    | nil => simp at h
    | cons b bs => simp [zipLongest, target_filter_go, target_filter_step, Except.bind]
  | cons a as ih =>
    cases trg with
    | nil => simp [zipLongest, target_filter_go, target_filter_step, Except.bind]
    | cons b bs =>
      have h' : as.length ≠ bs.length := by
        simpa using h
      simp only [zipLongest, target_filter_go, target_filter_step]
      by_cases hdrop : (splitWS a).length * 2 < (splitWS b).length
      · simp only [if_pos hdrop, Except.bind]
        exact ih bs h' _
      · by_cases hmg : mg b = true
        · simp only [if_neg hdrop, if_pos hmg, Except.bind]
          exact ih bs h' _
        · simp only [if_neg hdrop, if_neg hmg, Except.bind]
          exact ih bs h' _

/-- On unequal-length inputs, `target_filter` raises (the `None` fill value from
`zip_longest` has no `.split()`). -/
lemma target_filter_error (mg : Line → Bool) (src trg : List Line)
    (h : src.length ≠ trg.length) :
    target_filter mg src trg = Except.error () :=
  target_filter_go_error mg src trg h _

/-- **C2 counterexample.** With a one-line source and an empty target, `target_filter`
does not pad with empty strings and return a total of 1: it raises (the `None` fill is
not a string), so no counts are returned at all. -/
theorem target_filter_unequal_counterexample :
    target_filter (fun _ => true) [['a']] [] = Except.error () := by
  rfl

/-- **C2 amended.** On input streams of unequal line counts, `target_filter` fails:
`zip_longest` pads the shorter stream with `None`, the token-count heuristic calls
`.split()` on that fill, and the resulting error aborts the run; no total is returned
and the excess lines are not processed. -/
theorem target_filter_unequal_raises (mg : Line → Bool) (src trg : List Line)
    (h : src.length ≠ trg.length) :
    target_filter mg src trg = Except.error () :=
  target_filter_error mg src trg h

/-- Witness for C2 (amended) at a concrete unequal pair of inputs. -/
theorem target_filter_unequal_raises_witness :
    target_filter (fun _ => false) [['a'], ['b']] [['c']] = Except.error () :=
  target_filter_unequal_raises (fun _ => false) [['a'], ['b']] [['c']] (by decide)

/-- **C3.** Per aligned pair: the total is the previous total plus one; when the target's
whitespace-token count exceeds twice the source's, the pair is dropped — kept count and
outputs unchanged and the result is the same for every classifier `mg'` (the classifier
is not invoked); otherwise the pair is written and the kept count incremented iff
`_matches_gender(trg_line, gender)` holds; the driver returns the `(total, kept)` pair. -/
theorem target_filter_pair_behaviour (mg mg' : Line → Bool) (st : TFResult)
    (src_line trg_line : Line) :
    ∃ r, target_filter_step mg st (some src_line, some trg_line) = Except.ok r ∧
      r.total = st.total + 1 ∧
      (if (splitWS src_line).length * 2 < (splitWS trg_line).length then
        r.kept = st.kept ∧ r.out_src = st.out_src ∧ r.out_trg = st.out_trg ∧
          target_filter_step mg' st (some src_line, some trg_line) = Except.ok r
      else
        if mg trg_line then
          r.kept = st.kept + 1 ∧ r.out_src = st.out_src ++ [src_line] ∧
            r.out_trg = st.out_trg ++ [trg_line]
        else
          r.kept = st.kept ∧ r.out_src = st.out_src ∧ r.out_trg = st.out_trg) := by
  by_cases hdrop : (splitWS src_line).length * 2 < (splitWS trg_line).length
  · refine ⟨{ st with total := st.total + 1 }, ?_, rfl, ?_⟩
    · simp [target_filter_step, hdrop]
    · simp [hdrop, target_filter_step]
  · by_cases hmg : mg trg_line = true
    · refine ⟨⟨st.total + 1, st.kept + 1, st.out_src ++ [src_line],
        st.out_trg ++ [trg_line]⟩, ?_, rfl, ?_⟩
      · simp [target_filter_step, hdrop, hmg]
      · simp [hdrop, hmg]
    · have hmgf : mg trg_line = false := by
        simpa using hmg
      refine ⟨{ st with total := st.total + 1 }, ?_, rfl, ?_⟩
      · simp [target_filter_step, hdrop, hmgf]
      · simp [hdrop, hmgf]

/-- Witness for C3 at a concrete pair: the step succeeds and increments the total. -/
theorem target_filter_pair_behaviour_witness :
    ∃ r, target_filter_step (fun _ => true) ⟨0, 0, [], []⟩ (some ['a'], some ['b']) =
        Except.ok r ∧ r.total = 1 := by
  obtain ⟨r, hr, htotal, _⟩ := target_filter_pair_behaviour (fun _ => true)
    (fun _ => false) ⟨0, 0, [], []⟩ ['a'] ['b']
  exact ⟨r, hr, htotal⟩

lemma zip_of_projections {α β : Type} (l : List (α × β)) :
    (l.map Prod.fst).zip (l.map Prod.snd) = l := by
  induction l with
  | nil => rfl
  | cons p rest ih => simp [List.zip_cons_cons, ih]

/-- **C7.** Idempotence of `target_filter`: rerunning it with the same gender on the
output pair of a successful run yields `total = kept =` the first run's kept count and
reproduces its own inputs as outputs. -/
theorem target_filter_idempotent (mg : Line → Bool) (src trg : List Line) (r : TFResult)
    (h : target_filter mg src trg = Except.ok r) :
    target_filter mg r.out_src r.out_trg =
      Except.ok { total := r.kept, kept := r.kept, out_src := r.out_src,
                  out_trg := r.out_trg } := by
  by_cases hl : src.length = trg.length
  · rw [target_filter_eq mg src trg hl] at h
    have hr : r = { total := (src.zip trg).length,
                    kept := (keptPairs mg (src.zip trg)).length,
                    out_src := (keptPairs mg (src.zip trg)).map Prod.fst,
                    out_trg := (keptPairs mg (src.zip trg)).map Prod.snd } :=
      (Except.ok.injEq _ _).mp h.symm
    subst hr
    have hlen : ((keptPairs mg (src.zip trg)).map Prod.fst).length =
        ((keptPairs mg (src.zip trg)).map Prod.snd).length := by
      simp
    rw [target_filter_eq mg _ _ hlen]
    have hzip : (((keptPairs mg (src.zip trg)).map Prod.fst).zip
        ((keptPairs mg (src.zip trg)).map Prod.snd)) = keptPairs mg (src.zip trg) :=
      zip_of_projections _
    rw [hzip]
    have hfix : keptPairs mg (keptPairs mg (src.zip trg)) = keptPairs mg (src.zip trg) := by
      simp only [keptPairs, List.filter_filter]
      exact List.filter_congr fun p _ => by
        cases hp : (if (splitWS p.1).length * 2 < (splitWS p.2).length then false
          else mg p.2) <;> simp [hp]
    rw [hfix]
  · rw [target_filter_error mg src trg hl] at h
    exact absurd h (by simp)

/-- Witness for C7: a two-pair run keeping one pair; rerunning the filter on its output
keeps everything and reports `total = kept = 1`. -/
theorem target_filter_idempotent_witness :
    target_filter (fun t => decide (t = ['b'])) [['a'], ['a']] [['b'], ['c']] =
        Except.ok { total := 2, kept := 1, out_src := [['a']], out_trg := [['b']] } ∧
      target_filter (fun t => decide (t = ['b'])) [['a']] [['b']] =
        Except.ok { total := 1, kept := 1, out_src := [['a']], out_trg := [['b']] } :=
  ⟨by rfl,
    target_filter_idempotent (fun t => decide (t = ['b'])) [['a'], ['a']] [['b'], ['c']]
      { total := 2, kept := 1, out_src := [['a']], out_trg := [['b']] } (by rfl)⟩

/-! ### `source_filter.py`

The source filter classifies English lines with closed wordlists: `FEM_PRO`/`MSC_PRO`
(pronouns) and `FEM_WORDS`/`MSC_WORDS` (full gendered wordlists, containing the
pronouns). Words are compared as strings; we keep them as `List Char` tokens. -/

/-- `source_filter.FEM_PRO`. -/
def FEM_PRO : List Line := ["she", "her", "herself", "hers"].map String.toList

/-- `source_filter.MSC_PRO`. -/
def MSC_PRO : List Line := ["he", "him", "his", "himself"].map String.toList

/-- `source_filter.FEM_WORDS`: the feminine wordlist united with `FEM_PRO`. -/
def FEM_WORDS : List Line :=
  (["Ms", "Mrs", "Ms.", "Mrs.", "madam", "woman", "women", "actress", "actresses",
    "airwoman", "airwomen", "aunts", "aunt", "girl", "girls", "bride", "brides",
    "sister", "sisters", "businesswoman", "businesswomen", "chairwoman", "chairwomen",
    "chick", "chicks", "mom", "moms", "mommy", "mommies", "daughter", "daughters",
    "mother", "mothers", "female", "females", "gal", "gals", "lady", "ladies",
    "granddaughter", "granddaughters", "wife", "wives", "queen", "queens",
    "policewoman", "policewomen", "princess", "princesses", "spokeswoman",
    "spokeswomen"].map String.toList) ++ FEM_PRO

/-- `source_filter.MSC_WORDS`: the masculine wordlist united with `MSC_PRO` (the source
list contains `princes` twice). -/
def MSC_WORDS : List Line :=
  (["Mr.", "Mr", "sir", "man", "men", "actor", "actors", "uncle", "uncles", "boys",
    "boy", "groom", "grooms", "brother", "brothers", "businessman", "businessmen",
    "chairman", "chairmen", "dude", "dudes", "dad", "dads", "daddy", "daddies", "son",
    "sons", "father", "fathers", "male", "males", "guy", "guys", "gentleman",
    "gentlemen", "grandson", "grandsons", "husband", "husbands", "king", "kings",
    "lord", "lords", "policeman", "policemen", "princes", "princes", "spokesman",
    "spokesmen"].map String.toList) ++ MSC_PRO

/-- `source_filter._get_words`: strip the line, delete punctuation, and return the union
of the lowercased and original-case whitespace tokens (as a token list; only membership
matters, mirroring the Python `set`). -/
def get_words (line : Line) : List Line :=
  let clean_line := stripPunct (pyStrip line)
  splitWS (pyLower clean_line) ++ splitWS clean_line

/-- `source_filter._get_gender`: feminine iff a feminine pronoun is present and no
masculine word; masculine symmetrically; otherwise `other`. -/
def get_gender (line : Line) : String :=
  let words := get_words line
  let has_pro_fem := words.any (fun w => w ∈ FEM_PRO)
  let has_pro_msc := words.any (fun w => w ∈ MSC_PRO)
  let has_word_fem := words.any (fun w => w ∈ FEM_WORDS)
  let has_word_msc := words.any (fun w => w ∈ MSC_WORDS)
  if has_pro_fem && !has_word_msc then FEM_LABEL
  else if has_pro_msc && !has_word_fem then MSC_LABEL
  else OTHER_LABEL

/-- State of a `source_filter.main` run: the three counters and the two output files. -/
structure SFState where
  count_total : Nat
  count_fem : Nat
  count_msc : Nat
  fem_out : List Line
  msc_out : List Line
deriving DecidableEq

/-- One iteration of the `source_filter.main` loop, abstracted over the classifier `gg`
(instantiated with `get_gender` in the program): count the line, skip it when longer
than 1000 characters, otherwise write it to the output matching its gender (if any). -/
def source_filter_step (gg : Line → String) (st : SFState) (line : Line) : SFState :=
  if line.length > 1000 then
    { st with count_total := st.count_total + 1 }
  else
    let gender := gg line
    if gender = FEM_LABEL then
      { st with count_total := st.count_total + 1, count_fem := st.count_fem + 1,
                fem_out := st.fem_out ++ [line] }
    else if gender = MSC_LABEL then
      { st with count_total := st.count_total + 1, count_msc := st.count_msc + 1,
                msc_out := st.msc_out ++ [line] }
    else
      { st with count_total := st.count_total + 1 }

/-- The `source_filter.main` loop over the input lines. -/
def source_filter_main (gg : Line → String) (lines : List Line) : SFState :=
  lines.foldl (source_filter_step gg) ⟨0, 0, 0, [], []⟩

lemma mscPro_subset_mscWords (w : Line) (h : w ∈ MSC_PRO) : w ∈ MSC_WORDS :=
  List.mem_append_right _ h

lemma femPro_subset_femWords (w : Line) (h : w ∈ FEM_PRO) : w ∈ FEM_WORDS :=
  List.mem_append_right _ h

lemma any_mem_true {ws L : List Line} :
    ws.any (fun w => decide (w ∈ L)) = true ↔ ∃ w ∈ ws, w ∈ L := by
  simp [List.any_eq_true]

lemma any_mem_false {ws L : List Line} :
    ws.any (fun w => decide (w ∈ L)) = false ↔ ∀ w ∈ ws, w ∉ L := by
  simp [List.any_eq_false]

lemma get_gender_fem_iff (line : Line) :
    get_gender line = FEM_LABEL ↔
      (∃ w ∈ get_words line, w ∈ FEM_PRO) ∧ ∀ w ∈ get_words line, w ∉ MSC_WORDS := by
  constructor
  · intro h
    unfold get_gender at h
    rcases ha : (get_words line).any (fun w => decide (w ∈ FEM_PRO)) <;>
    rcases hb : (get_words line).any (fun w => decide (w ∈ MSC_PRO)) <;>
    rcases hc : (get_words line).any (fun w => decide (w ∈ FEM_WORDS)) <;>
    rcases hd : (get_words line).any (fun w => decide (w ∈ MSC_WORDS)) <;>
      first
      | (simp [ha, hb, hc, hd, FEM_LABEL, MSC_LABEL, OTHER_LABEL] at h
         exact ⟨any_mem_true.mp ha, any_mem_false.mp hd⟩)
      | (simp [ha, hb, hc, hd, FEM_LABEL, MSC_LABEL, OTHER_LABEL] at h)
  · rintro ⟨⟨w, hw, hwpro⟩, hall⟩
    have ha : (get_words line).any (fun w => decide (w ∈ FEM_PRO)) = true :=
      any_mem_true.mpr ⟨w, hw, hwpro⟩
    have hd : (get_words line).any (fun w => decide (w ∈ MSC_WORDS)) = false :=
      any_mem_false.mpr hall
    unfold get_gender
    simp [ha, hd]

lemma get_gender_msc_iff (line : Line) :
    get_gender line = MSC_LABEL ↔
      (∃ w ∈ get_words line, w ∈ MSC_PRO) ∧ ∀ w ∈ get_words line, w ∉ FEM_WORDS := by
  constructor
  · intro h
    unfold get_gender at h
    rcases ha : (get_words line).any (fun w => decide (w ∈ FEM_PRO)) <;>
    rcases hb : (get_words line).any (fun w => decide (w ∈ MSC_PRO)) <;>
    rcases hc : (get_words line).any (fun w => decide (w ∈ FEM_WORDS)) <;>
    rcases hd : (get_words line).any (fun w => decide (w ∈ MSC_WORDS)) <;>
      first
      | (simp [ha, hb, hc, hd, FEM_LABEL, MSC_LABEL, OTHER_LABEL] at h
         exact ⟨any_mem_true.mp hb, any_mem_false.mp hc⟩)
      | (simp [ha, hb, hc, hd, FEM_LABEL, MSC_LABEL, OTHER_LABEL] at h)
  · rintro ⟨⟨w, hw, hwpro⟩, hall⟩
    have hb : (get_words line).any (fun w => decide (w ∈ MSC_PRO)) = true :=
      any_mem_true.mpr ⟨w, hw, hwpro⟩
    have hc : (get_words line).any (fun w => decide (w ∈ FEM_WORDS)) = false :=
      any_mem_false.mpr hall
    have hd : (get_words line).any (fun w => decide (w ∈ MSC_WORDS)) = true :=
      any_mem_true.mpr ⟨w, hw, mscPro_subset_mscWords w hwpro⟩
    unfold get_gender
    simp [hb, hc, hd, FEM_LABEL, MSC_LABEL]

lemma get_gender_trichotomy (line : Line) :
    get_gender line = FEM_LABEL ∨ get_gender line = MSC_LABEL ∨
      get_gender line = OTHER_LABEL := by
  unfold get_gender
  by_cases h1 : ((get_words line).any (fun w => decide (w ∈ FEM_PRO)) &&
      !(get_words line).any (fun w => decide (w ∈ MSC_WORDS))) = true
  · simp [h1]
  · by_cases h2 : ((get_words line).any (fun w => decide (w ∈ MSC_PRO)) &&
        !(get_words line).any (fun w => decide (w ∈ FEM_WORDS))) = true
    · simp [h1, h2]
    · simp [h1, h2]

/-- **C4.** `_get_gender` returns `fem` iff the word set meets `FEM_PRO` and avoids
`MSC_WORDS`; returns `msc` iff it meets `MSC_PRO` and avoids `FEM_WORDS`; returns
`other` exactly otherwise, in which case the driver loop writes the line to neither
output; and the line `"She met Mr. Smith."` is classified `other`. -/
theorem get_gender_classification (line : Line) :
    (get_gender line = FEM_LABEL ↔
      (∃ w ∈ get_words line, w ∈ FEM_PRO) ∧ ∀ w ∈ get_words line, w ∉ MSC_WORDS) ∧
    (get_gender line = MSC_LABEL ↔
      (∃ w ∈ get_words line, w ∈ MSC_PRO) ∧ ∀ w ∈ get_words line, w ∉ FEM_WORDS) ∧
    (get_gender line = OTHER_LABEL ↔
      ¬((∃ w ∈ get_words line, w ∈ FEM_PRO) ∧ ∀ w ∈ get_words line, w ∉ MSC_WORDS) ∧
      ¬((∃ w ∈ get_words line, w ∈ MSC_PRO) ∧ ∀ w ∈ get_words line, w ∉ FEM_WORDS)) ∧
    (get_gender line = OTHER_LABEL → ∀ st : SFState,
      source_filter_step get_gender st line =
        { st with count_total := st.count_total + 1 }) ∧
    get_gender (String.toList "She met Mr. Smith.") = OTHER_LABEL := by
  refine ⟨get_gender_fem_iff line, get_gender_msc_iff line, ?_, ?_, by decide⟩
  · constructor
    · intro h
      constructor
      · intro hA
        rw [(get_gender_fem_iff line).mpr hA] at h
        exact absurd h (by decide)
      · intro hB
        rw [(get_gender_msc_iff line).mpr hB] at h
        exact absurd h (by decide)
    · rintro ⟨hA, hB⟩
      rcases get_gender_trichotomy line with h | h | h
      · exact absurd ((get_gender_fem_iff line).mp h) hA
      · exact absurd ((get_gender_msc_iff line).mp h) hB
      · exact h
  · intro h st
    by_cases hlen : line.length > 1000
    · simp [source_filter_step, hlen]
    · simp [source_filter_step, hlen, h, OTHER_LABEL, FEM_LABEL, MSC_LABEL]

/-- Witness for C4 at the spec's concrete scenario line. -/
theorem get_gender_classification_witness :
    get_gender (String.toList "She met Mr. Smith.") = OTHER_LABEL ∧
      source_filter_step get_gender ⟨0, 0, 0, [], []⟩ (String.toList "She met Mr. Smith.") =
        ⟨1, 0, 0, [], []⟩ := by
  have h := get_gender_classification (String.toList "She met Mr. Smith.")
  refine ⟨h.2.2.2.2, ?_⟩
  have h4 := h.2.2.2.1 h.2.2.2.2
    { count_total := 0, count_fem := 0, count_msc := 0, fem_out := [], msc_out := [] }
  simpa using h4

/-- **C8.** A line longer than 1000 characters is counted but written nowhere: the loop
step only increments the total, it produces the same state for every classifier (the
classifier is not invoked), and the run continues with the remaining lines from that
state. -/
theorem long_line_skipped (gg gg' : Line → String) (st : SFState) (line : Line)
    (rest : List Line) (h : line.length > 1000) :
    source_filter_step gg st line = { st with count_total := st.count_total + 1 } ∧
    source_filter_step gg st line = source_filter_step gg' st line ∧
    List.foldl (source_filter_step gg) st (line :: rest) =
      List.foldl (source_filter_step gg) { st with count_total := st.count_total + 1 } rest := by
  refine ⟨by simp [source_filter_step, h], by simp [source_filter_step, h], ?_⟩
  have hstep : source_filter_step gg st line =
      { st with count_total := st.count_total + 1 } := by
    simp [source_filter_step, h]
  simp [List.foldl_cons, hstep]

/-- Witness for C8: a 1001-character line. -/
theorem long_line_skipped_witness :
    source_filter_step (fun _ => FEM_LABEL) ⟨0, 0, 0, [], []⟩ (List.replicate 1001 'a') =
      ⟨1, 0, 0, [], []⟩ := by
  have h := long_line_skipped (fun _ => FEM_LABEL) (fun _ => MSC_LABEL)
    { count_total := 0, count_fem := 0, count_msc := 0, fem_out := [], msc_out := [] }
    (List.replicate 1001 'a') [] (by rw [List.length_replicate]; omega)
  exact h.1

lemma source_filter_outputs (gg : Line → String) (lines : List Line) (st : SFState) :
    ∃ f m : List Line, f.Sublist lines ∧ m.Sublist lines ∧
      List.foldl (source_filter_step gg) st lines =
        { count_total := st.count_total + lines.length,
          count_fem := st.count_fem + f.length,
          count_msc := st.count_msc + m.length,
          fem_out := st.fem_out ++ f,
          msc_out := st.msc_out ++ m } := by
  induction lines generalizing st with
  | nil => exact ⟨[], [], List.Sublist.refl _, List.Sublist.refl _, by simp⟩
  | cons line rest ih =>
    by_cases hlen : line.length > 1000
    · obtain ⟨f, m, hf, hm, hrun⟩ := ih { st with count_total := st.count_total + 1 }
      refine ⟨f, m, hf.cons line, hm.cons line, ?_⟩
      rw [List.foldl_cons]
      have hstep : source_filter_step gg st line =
          { st with count_total := st.count_total + 1 } := by
        simp [source_filter_step, hlen]
      rw [hstep, hrun]
      simp only [SFState.mk.injEq, List.length_cons]
      exact ⟨by omega, by trivial, by trivial, by trivial, by trivial⟩
    · by_cases hfem : gg line = FEM_LABEL
      · obtain ⟨f, m, hf, hm, hrun⟩ := ih
          { st with
            count_total := st.count_total + 1,
            count_fem := st.count_fem + 1,
            fem_out := st.fem_out ++ [line] }
        refine ⟨line :: f, m, hf.cons₂ line, hm.cons line, ?_⟩
        rw [List.foldl_cons]
        have hstep : source_filter_step gg st line =
            { st with
              count_total := st.count_total + 1,
              count_fem := st.count_fem + 1,
              fem_out := st.fem_out ++ [line] } := by
          simp [source_filter_step, hlen, hfem]
        rw [hstep, hrun]
        simp only [SFState.mk.injEq, List.length_cons]
        refine ⟨by omega, by omega, by trivial, by simp, by trivial⟩
      · by_cases hmsc : gg line = MSC_LABEL
        · obtain ⟨f, m, hf, hm, hrun⟩ := ih
            { st with
              count_total := st.count_total + 1,
              count_msc := st.count_msc + 1,
              msc_out := st.msc_out ++ [line] }
          refine ⟨f, line :: m, hf.cons line, hm.cons₂ line, ?_⟩
          rw [List.foldl_cons]
          have hstep : source_filter_step gg st line =
              { st with
                count_total := st.count_total + 1,
                count_msc := st.count_msc + 1,
                msc_out := st.msc_out ++ [line] } := by
            simp [source_filter_step, hlen, hfem, hmsc, MSC_LABEL, FEM_LABEL]
          rw [hstep, hrun]
          simp only [SFState.mk.injEq, List.length_cons]
          refine ⟨by omega, by trivial, by omega, by trivial, by simp⟩
        · obtain ⟨f, m, hf, hm, hrun⟩ := ih { st with count_total := st.count_total + 1 }
          refine ⟨f, m, hf.cons line, hm.cons line, ?_⟩
          rw [List.foldl_cons]
          have hstep : source_filter_step gg st line =
              { st with count_total := st.count_total + 1 } := by
            simp [source_filter_step, hlen, hfem, hmsc]
          rw [hstep, hrun]
          simp only [SFState.mk.injEq, List.length_cons]
          exact ⟨by omega, by trivial, by trivial, by trivial, by trivial⟩

/-- **C10.** Both drivers write kept lines verbatim: every line a successful
`target_filter` run writes is a line of the corresponding input in order (a sublist),
and likewise for the two outputs of the source filter; the lowercasing/punctuation
stripping used for classification never reaches the written output. -/
theorem outputs_verbatim (mg : Line → Bool) (gg : Line → String) (src trg : List Line)
    (r : TFResult) (lines : List Line)
    (h : target_filter mg src trg = Except.ok r) :
    r.out_src.Sublist src ∧ r.out_trg.Sublist trg ∧
      (source_filter_main gg lines).fem_out.Sublist lines ∧
      (source_filter_main gg lines).msc_out.Sublist lines := by
  have hsource : (source_filter_main gg lines).fem_out.Sublist lines ∧
      (source_filter_main gg lines).msc_out.Sublist lines := by
    obtain ⟨f, m, hf, hm, hrun⟩ := source_filter_outputs gg lines ⟨0, 0, 0, [], []⟩
    unfold source_filter_main
    rw [hrun]
    simpa using ⟨hf, hm⟩
  by_cases hl : src.length = trg.length
  · rw [target_filter_eq mg src trg hl] at h
    have hr : r = { total := (src.zip trg).length,
                    kept := (keptPairs mg (src.zip trg)).length,
                    out_src := (keptPairs mg (src.zip trg)).map Prod.fst,
                    out_trg := (keptPairs mg (src.zip trg)).map Prod.snd } :=
      (Except.ok.injEq _ _).mp h.symm
    subst hr
    have hkp : (keptPairs mg (src.zip trg)).Sublist (src.zip trg) :=
      List.filter_sublist _
    refine ⟨?_, ?_, hsource.1, hsource.2⟩
    · have := hkp.map Prod.fst
      rwa [List.map_fst_zip src trg (le_of_eq hl)] at this
    · have := hkp.map Prod.snd
      rwa [List.map_snd_zip src trg (ge_of_eq hl)] at this
  · rw [target_filter_error mg src trg hl] at h
    exact absurd h (by simp)

/-- Witness for C10: a concrete kept pair and a concrete source-filter run. -/
theorem outputs_verbatim_witness :
    [['a'], ['b']].Sublist [['a'], ['b']] ∧
      (source_filter_main get_gender [String.toList "He ran."]).fem_out.Sublist
        [String.toList "He ran."] := by
  have h := outputs_verbatim (fun _ => true) get_gender [['a'], ['b']] [['c'], ['d']]
    { total := 2, kept := 2, out_src := [['a'], ['b']], out_trg := [['c'], ['d']] }
    [String.toList "He ran."] (by rfl)
  exact ⟨h.1, h.2.2.1⟩

/-! ### `GermanMorphFilterer._get_gender_dict`

Each dictionary line is `<word> <tag1,tag2,...> ...`; a line contributes iff it has at
least two whitespace fields, its second field has more than two comma pieces, the first
tag piece is `NN` and the second is `fem` or `masc`. The dictionary maps each collected
word to its gender unless the word was collected with both genders. -/

/-- Parse one line of the German morphological dictionary into the `(lowercased word,
gender)` contribution it makes to `fem_morphs` / `msc_morphs`, if any. -/
def parse_morph_line (line : Line) : Option (Line × String) :=
  match splitWS (pyStrip line) with
  | w :: t :: _ =>
    match splitComma t with
    | t0 :: t1 :: _ :: _ =>
      if t0 = String.toList "NN" then
        if t1 = String.toList "fem" then some (pyLower w, FEM_LABEL)
        else if t1 = String.toList "masc" then some (pyLower w, MSC_LABEL)
        else none
      else none
    | _ => none
  | _ => none

/-- The `fem_morphs` set (as a list of collected words; only membership matters). -/
def fem_morphs (lines : List Line) : List Line :=
  lines.filterMap fun l =>
    match parse_morph_line l with
    | some (w, g) => if g = FEM_LABEL then some w else none
    | none => none

/-- The `msc_morphs` set. -/
def msc_morphs (lines : List Line) : List Line :=
  lines.filterMap fun l =>
    match parse_morph_line l with
    | some (w, g) => if g = MSC_LABEL then some w else none
    | none => none

/-- `GermanMorphFilterer._get_gender_dict`, as the association list the two final loops
build: feminine entries for words not also masculine, then masculine entries for words
not also feminine. -/
def get_gender_dict (lines : List Line) : List (Line × String) :=
  ((fem_morphs lines).filter (fun w => decide (w ∉ msc_morphs lines))).map
      (fun w => (w, FEM_LABEL)) ++
    ((msc_morphs lines).filter (fun w => decide (w ∉ fem_morphs lines))).map
      (fun w => (w, MSC_LABEL))

/-- Python dict lookup on the association list (all entries of a key carry the same
value, so first-match lookup agrees with the dict). -/
def dict_find (d : List (Line × String)) (w : Line) : Option String :=
  (d.find? (fun e => decide (e.1 = w))).map Prod.snd

lemma find_map_const (ws : List Line) (lab : String) (w : Line) :
    (ws.map (fun x => (x, lab))).find? (fun e => decide (e.1 = w)) =
      if w ∈ ws then some (w, lab) else none := by
  induction ws with
  | nil => simp
  | cons a rest ih =>
    by_cases ha : a = w
    · subst ha
      simp [List.find?_cons_of_pos]
    · rw [List.map_cons, List.find?_cons_of_neg _ (by simpa using ha), ih]
      by_cases hw : w ∈ rest
      · rw [if_pos hw, if_pos (List.mem_cons_of_mem a hw)]
      · rw [if_neg hw, if_neg ?_]
        intro hmem
        rcases List.mem_cons.mp hmem with h | h
        · exact ha h.symm
        · exact hw h

lemma dict_find_eq (lines : List Line) (w : Line) :
    dict_find (get_gender_dict lines) w =
      if w ∈ fem_morphs lines ∧ w ∉ msc_morphs lines then some FEM_LABEL
      else if w ∈ msc_morphs lines ∧ w ∉ fem_morphs lines then some MSC_LABEL
      else none := by
  unfold dict_find get_gender_dict
  rw [List.find?_append, find_map_const, find_map_const]
  by_cases h1 : w ∈ fem_morphs lines ∧ w ∉ msc_morphs lines
  · have hmem : w ∈ (fem_morphs lines).filter (fun w => decide (w ∉ msc_morphs lines)) := by
      rw [List.mem_filter]
      exact ⟨h1.1, by simpa using h1.2⟩
    simp [hmem, h1]
  · have hmem : w ∉ (fem_morphs lines).filter (fun w => decide (w ∉ msc_morphs lines)) := by
      rw [List.mem_filter]
      intro hc
      exact h1 ⟨hc.1, by simpa using hc.2⟩
    by_cases h2 : w ∈ msc_morphs lines ∧ w ∉ fem_morphs lines
    · have hmem2 : w ∈ (msc_morphs lines).filter (fun w => decide (w ∉ fem_morphs lines)) := by
        rw [List.mem_filter]
        exact ⟨h2.1, by simpa using h2.2⟩
      simp [hmem, hmem2, h1, h2]
    · have hmem2 : w ∉ (msc_morphs lines).filter (fun w => decide (w ∉ fem_morphs lines)) := by
        rw [List.mem_filter]
        intro hc
        exact h2 ⟨hc.1, by simpa using hc.2⟩
      simp [hmem, hmem2, h1, h2]

/-- **C5.** A word collected with both feminine and masculine noun entries is absent
from the German gender dictionary; a present word maps to the single gender of its
unambiguous entries (`fem` iff collected feminine-only, `msc` iff masculine-only, and
nothing else); a line that fails the row guards contributes nothing, and in particular
rows with at most one whitespace field are skipped. -/
theorem get_gender_dict_unambiguous (lines : List Line) (w bad : Line)
    (hbad : parse_morph_line bad = none) :
    (w ∈ fem_morphs lines ∧ w ∈ msc_morphs lines →
      dict_find (get_gender_dict lines) w = none) ∧
    (dict_find (get_gender_dict lines) w = some FEM_LABEL ↔
      w ∈ fem_morphs lines ∧ w ∉ msc_morphs lines) ∧
    (dict_find (get_gender_dict lines) w = some MSC_LABEL ↔
      w ∈ msc_morphs lines ∧ w ∉ fem_morphs lines) ∧
    (∀ g, dict_find (get_gender_dict lines) w = some g →
      g = FEM_LABEL ∨ g = MSC_LABEL) ∧
    get_gender_dict (bad :: lines) = get_gender_dict lines ∧
    (∀ l : Line, (splitWS (pyStrip l)).length ≤ 1 → parse_morph_line l = none) := by
  have heq := dict_find_eq lines w
  refine ⟨?_, ?_, ?_, ?_, ?_, ?_⟩
  · rintro ⟨hf, hm⟩
    rw [heq]
    rw [if_neg (by tauto), if_neg (by tauto)]
  · rw [heq]
    by_cases h1 : w ∈ fem_morphs lines ∧ w ∉ msc_morphs lines
    · simp [h1]
    · rw [if_neg h1]
      by_cases h2 : w ∈ msc_morphs lines ∧ w ∉ fem_morphs lines
      · simp only [if_pos h2]
        constructor
        · intro hc
          exact absurd (Option.some.injEq _ _ ▸ hc) (by simp [MSC_LABEL, FEM_LABEL])
        · intro hc
          exact absurd hc h1
      · simp [h2, h1]
  · rw [heq]
    by_cases h1 : w ∈ fem_morphs lines ∧ w ∉ msc_morphs lines
    · simp only [if_pos h1]
      constructor
      · intro hc
        exact absurd (Option.some.injEq _ _ ▸ hc) (by simp [MSC_LABEL, FEM_LABEL])
      · intro hc
        exact absurd hc (by tauto)
    · rw [if_neg h1]
      by_cases h2 : w ∈ msc_morphs lines ∧ w ∉ fem_morphs lines
      · simp [h2]
      · simp [h1, h2]
  · intro g hg
    rw [heq] at hg
    by_cases h1 : w ∈ fem_morphs lines ∧ w ∉ msc_morphs lines
    · rw [if_pos h1] at hg
      exact Or.inl (Option.some.injEq _ _ ▸ hg).symm
    · rw [if_neg h1] at hg
      by_cases h2 : w ∈ msc_morphs lines ∧ w ∉ fem_morphs lines
      · rw [if_pos h2] at hg
        exact Or.inr (Option.some.injEq _ _ ▸ hg).symm
      · rw [if_neg h2] at hg
        exact absurd hg (by simp)
  · have hf : fem_morphs (bad :: lines) = fem_morphs lines := by
      simp [fem_morphs, List.filterMap_cons, hbad]
    have hm : msc_morphs (bad :: lines) = msc_morphs lines := by
      simp [msc_morphs, List.filterMap_cons, hbad]
    unfold get_gender_dict
    rw [hf, hm]
  · intro l hl
    unfold parse_morph_line
    rcases hsplit : splitWS (pyStrip l) with _ | ⟨w0, _ | ⟨t, rest⟩⟩
    · rfl
    · rfl
    · rw [hsplit] at hl
      simp at hl

/-- Witness for C5 on a concrete four-line dictionary: `frau` is feminine-only, `haus`
masculine-only, `see` is collected with both genders and must be absent, and a
one-field row is ignored. -/
theorem get_gender_dict_unambiguous_witness :
    dict_find (get_gender_dict ((["frau NN,fem,nom", "haus NN,masc,nom",
        "See NN,fem,nom", "see NN,masc,nom"].map String.toList)))
      (String.toList "see") = none ∧
    dict_find (get_gender_dict ((["frau NN,fem,nom", "haus NN,masc,nom",
        "See NN,fem,nom", "see NN,masc,nom"].map String.toList)))
      (String.toList "frau") = some FEM_LABEL ∧
    get_gender_dict ((String.toList "malformed") ::
        (["frau NN,fem,nom"].map String.toList)) =
      get_gender_dict (["frau NN,fem,nom"].map String.toList) := by
  have h := get_gender_dict_unambiguous
    (["frau NN,fem,nom", "haus NN,masc,nom", "See NN,fem,nom",
      "see NN,masc,nom"].map String.toList)
    (String.toList "see") (String.toList "malformed") (by decide)
  have h2 := get_gender_dict_unambiguous (["frau NN,fem,nom"].map String.toList)
    (String.toList "frau") (String.toList "malformed") (by decide)
  refine ⟨h.1 (by decide), ?_, h2.2.2.2.2.1⟩
  exact ((get_gender_dict_unambiguous
    (["frau NN,fem,nom", "haus NN,masc,nom", "See NN,fem,nom",
      "see NN,masc,nom"].map String.toList)
    (String.toList "frau") (String.toList "malformed") (by decide)).2.1).mpr (by decide)

/-! ### `HebrewMorphFilterer._get_gender_per_word`

The classifier deduplicates the whitespace tokens (spaCy's tokenizer `Doc.text` returns
its input verbatim, so `set(self.tokenizer(tok).text for tok in sentence.split())` is
the token set of `sentence.split()`), and classifies each token by its final character,
except that the token `את` is always `other`. -/

/-- `self.fem_chars`. -/
def fem_chars : List Char := ['ת', 'ה']

/-- `self.msc_chars`. -/
def msc_chars : List Char := ['ק', 'ד', 'ר', 'ש', 'ט', 'ב', 'א', 'ך', 'ל', 'ס']

/-- The exception token `את`. -/
def hebrew_exception : Line := String.toList "את"

/-- Per-token branch of the Hebrew loop: `word[-1]` is the final character (whitespace
tokens are never empty, so the `getLastD` default is never used). -/
def hebrew_classify (w : Line) : String :=
  if w ≠ hebrew_exception then
    if w.getLastD ' ' ∈ fem_chars then FEM_LABEL
    else if w.getLastD ' ' ∈ msc_chars then MSC_LABEL
    else OTHER_LABEL
  else OTHER_LABEL

/-- `HebrewMorphFilterer._get_gender_per_word`: one label per distinct token. -/
def hebrew_get_gender_per_word (sentence : Line) : List String :=
  ((splitWS sentence).dedup).map hebrew_classify

lemma splitWSAux_ne_nil (s acc : List Char) :
    ∀ t ∈ splitWSAux s acc, t ≠ [] := by
  induction s generalizing acc with
  | nil =>
    intro t ht
    unfold splitWSAux at ht
    by_cases hacc : acc = []
    · simp [hacc] at ht
    · rw [if_neg hacc] at ht
      rcases List.mem_singleton.mp ht with rfl
      simpa using hacc
  | cons c rest ih =>
    intro t ht
    unfold splitWSAux at ht
    by_cases hsp : isPySpace c = true
    · rw [if_pos hsp] at ht
      by_cases hacc : acc = []
      · rw [if_pos hacc] at ht
        exact ih [] t ht
      · rw [if_neg hacc] at ht
        rcases List.mem_cons.mp ht with rfl | h
        · simpa using hacc
        · exact ih [] t h
    · rw [if_neg hsp] at ht
      exact ih (c :: acc) t ht

/-- **C6.** The Hebrew classifier labels the deduplicated whitespace tokens (one label
per distinct token); the exception token `את` is `other` even though its final character
is in the feminine suffix set; every other token is `fem` iff its final character is in
the feminine set, `msc` iff in the masculine set, `other` iff in neither; and tokens are
never empty. -/
theorem hebrew_classifier_spec (sentence : Line) (w : Line)
    (hw : w ≠ hebrew_exception) :
    (∃ toks : List Line, toks.Nodup ∧ (∀ t, t ∈ toks ↔ t ∈ splitWS sentence) ∧
      hebrew_get_gender_per_word sentence = toks.map hebrew_classify) ∧
    hebrew_classify hebrew_exception = OTHER_LABEL ∧
    hebrew_exception.getLastD ' ' ∈ fem_chars ∧
    (hebrew_classify w = FEM_LABEL ↔ w.getLastD ' ' ∈ fem_chars) ∧
    (hebrew_classify w = MSC_LABEL ↔ w.getLastD ' ' ∈ msc_chars) ∧
    (hebrew_classify w = OTHER_LABEL ↔
      w.getLastD ' ' ∉ fem_chars ∧ w.getLastD ' ' ∉ msc_chars) ∧
    ∀ t ∈ splitWS sentence, t ≠ [] := by
  have hdisj : ∀ c ∈ msc_chars, c ∉ fem_chars := by decide
  refine ⟨⟨(splitWS sentence).dedup, List.nodup_dedup _,
      fun t => List.mem_dedup, rfl⟩, by decide, by decide, ?_, ?_, ?_,
      splitWSAux_ne_nil sentence []⟩
  · unfold hebrew_classify
    rw [if_pos hw]
    by_cases hf : w.getLastD ' ' ∈ fem_chars
    · rw [if_pos hf]
      exact iff_of_true rfl hf
    · rw [if_neg hf]
      by_cases hm : w.getLastD ' ' ∈ msc_chars
      · rw [if_pos hm]
        exact iff_of_false (by decide) hf
      · rw [if_neg hm]
        exact iff_of_false (by decide) hf
  · unfold hebrew_classify
    rw [if_pos hw]
    by_cases hf : w.getLastD ' ' ∈ fem_chars
    · rw [if_pos hf]
      exact iff_of_false (by decide) (fun hc => hdisj _ hc hf)
    · rw [if_neg hf]
      by_cases hm : w.getLastD ' ' ∈ msc_chars
      · rw [if_pos hm]
        exact iff_of_true rfl hm
      · rw [if_neg hm]
        exact iff_of_false (by decide) hm
  · unfold hebrew_classify
    rw [if_pos hw]
    by_cases hf : w.getLastD ' ' ∈ fem_chars
    · rw [if_pos hf]
      exact iff_of_false (by decide) (fun hc => hc.1 hf)
    · rw [if_neg hf]
      by_cases hm : w.getLastD ' ' ∈ msc_chars
      · rw [if_pos hm]
        exact iff_of_false (by decide) (fun hc => hc.2 hm)
      · rw [if_neg hm]
        exact iff_of_true rfl ⟨hf, hm⟩

/-- Witness for C6: the token `אב` (final character in the masculine set) is labeled
`msc`, the duplicate-token sentence `אב אב` yields a single label, and `את` is `other`. -/
theorem hebrew_classifier_spec_witness :
    hebrew_classify (String.toList "אב") = MSC_LABEL ∧
      hebrew_get_gender_per_word (String.toList "אב אב") = [MSC_LABEL] ∧
      hebrew_classify hebrew_exception = OTHER_LABEL := by
  have h := hebrew_classifier_spec (String.toList "אב אב") (String.toList "אב")
    (by decide)
  exact ⟨(h.2.2.2.2.1).mpr (by decide), by decide, h.2.1⟩

end GfstNmt
